import Mathlib

/-!
Shallow embedding of the ingestion-to-bar pipeline of the
Real-Time-Crypto-Pair-Trading-Analytics-Dashboard repository
(`src/ingestion.py`, `src/storage.py`), together with theorems settling
the frozen claims about it.

Numeric values (price, quantity) are modelled as exact rationals; the
question of the binary floating-point representation actually used by
the code (`float(...)`, `DOUBLE` columns) is treated separately by the
`PyFloatRepresentable` development below.
-/

/-- ASCII lowercasing of one character, as Python's `str.lower` acts on
the ASCII-only symbol strings of this pipeline. -/
def lowerChar (c : Char) : Char :=
  if 'A' ≤ c ∧ c ≤ 'Z' then Char.ofNat (c.toNat + 32) else c

/-- Python's `symbol.lower()` on the ASCII symbol strings used by the
pipeline (`storage.py` lines 29 and 159, `ingestion.py` line 98). -/
def pyLower (s : String) : String := ⟨s.data.map lowerChar⟩

/-- Tick as decoded by `DataResampler._fetch_and_buffer_ticks`
(`storage.py` lines 109-113): fields `T` (ms epoch timestamp),
`P` (price), `Q` (quantity). -/
structure Tick where
  T : ℕ
  P : ℚ
  Q : ℚ
deriving DecidableEq, Repr

/-- Row of the `ohlcv` DuckDB table (`storage.py` lines 51-63):
columns `symbol, time, open, high, low, close, volume, timeframe`,
with primary key `(symbol, time, timeframe)`. -/
structure Bar where
  symbol : String
  time : ℕ
  open_ : ℚ
  high : ℚ
  low : ℚ
  close : ℚ
  volume : ℚ
  timeframe : String
deriving DecidableEq, Repr

/-- Configured timeframes `RESAMPLE_TIMEFRAMES = ['1s', '1min', '5min']`
(`storage.py` line 16), paired with their widths in milliseconds. -/
def RESAMPLE_TIMEFRAMES : List (String × ℕ) :=
  [("1s", 1000), ("1min", 60000), ("5min", 300000)]

/-- Bucket assignment performed by `df['P'].resample(tf)` in
`_process_and_resample` (`storage.py` lines 148-152): since the
timeframes 1s/1min/5min all divide a day and pandas aligns bucket
origins to the start of the day, a tick at `t` ms lands in the bucket
starting at `floor(t / w) * w` for width `w` ms. -/
def bucketStart (w t : ℕ) : ℕ := t / w * w

/-- Timestamp order used by `df.set_index('time').sort_index()`
(`storage.py` line 144). -/
def tickLE (a b : Tick) : Prop := a.T ≤ b.T

instance : DecidableRel tickLE := fun a b => Nat.decLe a.T b.T

instance : IsTotal Tick tickLE := ⟨fun a b => Nat.le_total a.T b.T⟩

instance : IsTrans Tick tickLE := ⟨fun _ _ _ => Nat.le_trans⟩

/-- The `sort_index()` step of `_process_and_resample`: ticks sorted by
timestamp. -/
def sortByTime (l : List Tick) : List Tick := List.insertionSort tickLE l

/-- Ticks of the bucket starting at `b` for width `w`. -/
def bucketTicks (w b : ℕ) (l : List Tick) : List Tick :=
  l.filter (fun t => bucketStart w t.T == b)

/-- The distinct bucket keys hit by a list of ticks, in first-occurrence
order; pandas produces one output row per such bucket once the
`dropna()` of `_process_and_resample` (line 155) has removed the
all-NaN rows of empty buckets. -/
def bucketKeys (w : ℕ) (l : List Tick) : List ℕ :=
  (l.map (fun t => bucketStart w t.T)).dedup

/-- OHLCV aggregation of one non-empty bucket, mirroring
`.resample(tf).ohlc()` (open = first, high = max, low = min,
close = last, in timestamp order) joined with `.resample(tf).sum()`
on the quantity column (`storage.py` lines 150-155). Returns `none`
exactly when the bucket is empty (such buckets are dropped by
`dropna()`). -/
def barOfBucket (sym tf : String) (w b : ℕ) (l : List Tick) : Option Bar :=
  match bucketTicks w b l with
  | [] => none
  | t :: rest =>
    some
      { symbol := sym
        time := b
        open_ := t.P
        high := rest.foldl (fun m x => max m x.P) t.P
        low := rest.foldl (fun m x => min m x.P) t.P
        close := (rest.getLastD t).P
        volume := ((t :: rest).map Tick.Q).sum
        timeframe := tf }

/-- Resampling of one symbol's ticks at one timeframe, from
`_process_and_resample` (`storage.py` lines 148-169): sort by time,
then emit one bar per non-empty bucket; the emitted bars carry
`symbol.lower()` and the timeframe label. -/
def resampleTimeframe (sym tf : String) (w : ℕ) (ticks : List Tick) : List Bar :=
  let sorted := sortByTime ticks
  (bucketKeys w sorted).filterMap (fun b => barOfBucket (pyLower sym) tf w b sorted)

/-- Method `DataResampler._process_and_resample` (`storage.py` lines 129-174):
returns `None` on an empty buffer, otherwise clears the symbol's buffer
and returns the concatenation of the per-timeframe resampled bars. The
buffer map of the resampler (`self.tick_buffer`) is passed and returned
explicitly. -/
def process_and_resample (buf : String → List Tick) (symbol : String) :
    Option (List Bar) × (String → List Tick) :=
  match buf symbol with
  | [] => (none, buf)
  | t :: ts =>
    let cleared : String → List Tick := fun s => if s = symbol then [] else buf s
    let final_ohlcv_data :=
      RESAMPLE_TIMEFRAMES.flatMap (fun p => resampleTimeframe symbol p.1 p.2 (t :: ts))
    (if final_ohlcv_data.isEmpty then none else some final_ohlcv_data, cleared)

/-- Raw fields of one Redis stream entry, as accessed by
`_fetch_and_buffer_ticks` (`storage.py` lines 109-113). Each field is
`none` when the decode of that field fails (key absent, or
`int(...)`/`float(...)` raising), and `some v` with the decoded value
otherwise. -/
structure EntryFields where
  T : Option ℕ
  P : Option ℚ
  Q : Option ℚ
deriving DecidableEq, Repr

/-- The `try` body of the per-message loop of `_fetch_and_buffer_ticks`:
the tick is built only when all three field decodes succeed; any
exception inside the `try` yields no tick. -/
def decodeTick (f : EntryFields) : Option Tick :=
  match f.T, f.P, f.Q with
  | some t, some p, some q => some ⟨t, p, q⟩
  | _, _, _ => none

/-- Per-stream message loop of `_fetch_and_buffer_ticks` (`storage.py`
lines 102-118): starting from the symbol's current buffer and an empty
`message_ids` list, each message is decoded; on success the tick is
appended to the buffer and the message id is recorded for
acknowledgment, on failure the message is skipped and the loop
continues. Returns the final buffer and the `message_ids` list. -/
def processMessages (buf : List Tick) (msgs : List (ℕ × EntryFields)) :
    List Tick × List ℕ :=
  msgs.foldl
    (fun acc m =>
      match decodeTick m.2 with
      | some tick => (acc.1 ++ [tick], acc.2 ++ [m.1])
      | none => acc)
    (buf, [])

/-- Observable events of one iteration of `run_worker_thread`
(`storage.py` lines 186-204), in the order the code performs them. -/
inductive WEvent where
  | readBatch : WEvent
  | bufferTick (stream : String) (id : ℕ) : WEvent
  | decodeFail (stream : String) (id : ℕ) : WEvent
  | ackIds (stream : String) (ids : List ℕ) : WEvent
  | resample (symbol : String) : WEvent
  | upsertBars (symbol : String) : WEvent
deriving DecidableEq, Repr

/-- Events of the per-stream part of `_fetch_and_buffer_ticks`: one
buffer/fail event per message in order, then — when `message_ids` is
non-empty — one `xack` call for the successfully decoded ids
(`storage.py` lines 106-122). -/
def streamTrace (stream : String) (msgs : List (ℕ × EntryFields)) : List WEvent :=
  (msgs.map fun m =>
    match decodeTick m.2 with
    | some _ => WEvent.bufferTick stream m.1
    | none => WEvent.decodeFail stream m.1) ++
  (let ids := (msgs.filter fun m => (decodeTick m.2).isSome).map Prod.fst
   if ids.isEmpty then [] else [WEvent.ackIds stream ids])

/-- Events of one `_fetch_and_buffer_ticks` call: the blocking
`XREADGROUP`, then the per-stream processing (including the per-stream
acknowledgments). -/
def fetchTrace (batch : List (String × List (ℕ × EntryFields))) : List WEvent :=
  WEvent.readBatch :: batch.flatMap fun s => streamTrace s.1 s.2

/-- Events of the per-symbol resample/store loop of `run_worker_thread`
(`storage.py` lines 193-199): `_process_and_resample` for each symbol,
followed by `_store_to_duckdb` whenever it returned a non-empty frame.
`produced` abstracts the test `resampled_data is not None and not
resampled_data.empty`. -/
def processTrace (symbols : List String) (produced : String → Bool) : List WEvent :=
  symbols.flatMap fun sym =>
    WEvent.resample sym :: (if produced sym then [WEvent.upsertBars sym] else [])

/-- Events of one full iteration of the worker loop of
`run_worker_thread`: fetch-and-buffer (which also acknowledges), then
resample and store per symbol. -/
def cycleTrace (symbols : List String) (batch : List (String × List (ℕ × EntryFields)))
    (produced : String → Bool) : List WEvent :=
  fetchTrace batch ++ processTrace symbols produced

/-- Acknowledgment events. -/
def WEvent.isAck : WEvent → Bool
  | WEvent.ackIds _ _ => true
  | _ => false

/-- Upsert (DuckDB store) events. -/
def WEvent.isUpsert : WEvent → Bool
  | WEvent.upsertBars _ => true
  | _ => false

/-- Primary key of the `ohlcv` table: `(symbol, time, timeframe)`
(`storage.py` line 61). -/
def barKey (b : Bar) : String × ℕ × String := (b.symbol, b.time, b.timeframe)

/-- One-row effect of `INSERT OR REPLACE INTO ohlcv` in
`_store_to_duckdb` (`storage.py` line 181) on a table with primary key
`(symbol, time, timeframe)`: any existing row with the bar's key is
replaced, all other rows are kept. -/
def upsertBar (table : List Bar) (b : Bar) : List Bar :=
  b :: table.filter fun r => decide (barKey r ≠ barKey b)

/-- Rows of the table at a given key. -/
def rowsAtKey (table : List Bar) (k : String × ℕ × String) : List Bar :=
  table.filter fun r => decide (barKey r = k)

/-- Multi-row `INSERT OR REPLACE` of a whole resampled frame. -/
def storeBars (table : List Bar) (bars : List Bar) : List Bar :=
  bars.foldl upsertBar table

/-- Parsed inbound WebSocket message, as accessed by
`TickIngestor.process_and_store` (`ingestion.py` lines 82-111): the
optional fields `s` (symbol), `p` (price string), `q` (quantity
string), `E` (event time ms) of the JSON object. -/
structure FeedMsg where
  s : Option String
  p : Option String
  q : Option String
  E : Option ℕ
deriving DecidableEq, Repr

/-- Stream entry written by the `XADD` of `process_and_store`
(`ingestion.py` lines 98-111): stream key `ticks:<symbol lowercased>`
and the raw string fields `T`, `P`, `Q`. -/
structure PublishedTick where
  stream : String
  T : String
  P : String
  Q : String
deriving DecidableEq, Repr

/-- Method `TickIngestor.process_and_store` (`ingestion.py` lines 82-111): if
the parsed message has both an `s` and a `p` key, the code reads
`tick_data['E']`, `tick_data['p']`, `tick_data['q']` and publishes via
`XADD`; a missing `E` or `q` key raises `KeyError` (modelled as
`Except.error`), which `listen_for_ticks` catches by breaking the
receive loop. A message without `s` or without `p` falls through the
`if` with no effect. -/
def process_and_store (m : FeedMsg) : Except Unit (Option PublishedTick) :=
  match m.s, m.p with
  | some symbol, some price =>
    match m.E, m.q with
    | some timestamp_ms, some qty =>
      Except.ok (some ⟨"ticks:" ++ pyLower symbol, toString timestamp_ms, price, qty⟩)
    | _, _ => Except.error ()
  | _, _ => Except.ok none

/-- The message resulted in an `XADD` to the stream broker. -/
def publishes (m : FeedMsg) : Prop :=
  ∃ t : PublishedTick, process_and_store m = Except.ok (some t)

/-- Values exactly representable by the binary floating point used for
price and quantity throughout the pipeline — Python `float` in
`_fetch_and_buffer_ticks` (`storage.py` lines 111-112) and the
`DOUBLE` columns of the `ohlcv` table (`storage.py` lines 53-59). Every
IEEE-754 binary64 value is a dyadic rational `m / 2^e`; range and
mantissa-width limits only shrink this set further, so a value outside
it is certainly stored inexactly. -/
def PyFloatRepresentable (q : ℚ) : Prop := ∃ m : ℤ, ∃ e : ℕ, q = m / 2 ^ e

/-- Exact value of an exchange decimal string with integer part and
fraction digits concatenated into `n` and `k` digits after the point
(e.g. `"0.1"` is `decimalValue 1 1`). -/
def decimalValue (n k : ℕ) : ℚ := n / 10 ^ k

/-- Concrete tick list of the spec's worked example: prices
`[100, 101, 99, 102]` with quantities `[1, 2, 1, 1]` inside one
1-second bucket. -/
def exTicks : List Tick := [⟨0, 100, 1⟩, ⟨100, 101, 2⟩, ⟨200, 99, 1⟩, ⟨300, 102, 1⟩]

/-- The bar the spec's worked example expects for `exTicks`. -/
def exBar : Bar :=
  { symbol := "btcusdt", time := 0, open_ := 100, high := 102, low := 99,
    close := 102, volume := 5, timeframe := "1s" }

/-- A one-stream, one-entry batch with a well-formed tick, used to
exercise the worker-cycle trace at a concrete input. -/
def exBatch : List (String × List (ℕ × EntryFields)) :=
  [("ticks:btcusdt", [(1, ⟨some 0, some 100, some 1⟩)])]

/-- Evaluation of the resampler on the spec's worked example. -/
theorem resample_spec_example :
    resampleTimeframe "BTCUSDT" "1s" 1000 exTicks = [exBar] := by
  norm_num [resampleTimeframe, sortByTime, List.insertionSort, List.orderedInsert,
    tickLE, bucketKeys, bucketTicks, bucketStart, barOfBucket, pyLower, lowerChar,
    RESAMPLE_TIMEFRAMES, List.filter, List.filterMap_cons, List.filterMap_nil,
    List.getLastD_cons, List.getLastD_nil, Bar.mk.injEq, String.ext_iff,
    max_def, min_def, exTicks, exBar]
  decide

/-- Rows matching a key inside the rows rejected by an upsert's replace
filter: none remain. -/
theorem rowsAtKey_filter_ne (l : List Bar) (k : String × ℕ × String) :
    rowsAtKey (l.filter fun r => decide (barKey r ≠ k)) k = [] := by
  induction l with
  | nil => rfl
  | cons a l ih =>
    by_cases h : barKey a = k <;> simp_all [rowsAtKey, List.filter_cons, h]

/-- Replacing at a key twice filters the same rows as replacing once. -/
theorem filter_ne_idem (l : List Bar) (k : String × ℕ × String) :
    (l.filter fun r => decide (barKey r ≠ k)).filter
      (fun r => decide (barKey r ≠ k)) = l.filter fun r => decide (barKey r ≠ k) := by
  induction l with
  | nil => rfl
  | cons a l ih =>
    by_cases h : barKey a = k <;> simp [List.filter_cons, h, ih]

/-- C2: upserting a bar is idempotent: writing the same bar twice
leaves the table exactly as writing it once; after an upsert the rows
at the bar's key are exactly that one bar; a later upsert of a bar with
the same key overwrites that row. -/
theorem upsert_bar_idempotent_overwrite (table : List Bar) (b b' : Bar)
    (hk : barKey b' = barKey b) :
    upsertBar (upsertBar table b) b = upsertBar table b ∧
    rowsAtKey (upsertBar table b) (barKey b) = [b] ∧
    rowsAtKey (upsertBar (upsertBar table b) b') (barKey b) = [b'] := by
  refine ⟨?_, ?_, ?_⟩
  · simp [upsertBar, List.filter_cons, filter_ne_idem]
  · simpa [rowsAtKey, upsertBar, List.filter_cons] using
      rowsAtKey_filter_ne table (barKey b)
  · have h1 : rowsAtKey ((upsertBar table b).filter
        fun r => decide (barKey r ≠ barKey b')) (barKey b) = [] := by
      rw [hk]; exact rowsAtKey_filter_ne _ _
    simpa [rowsAtKey, upsertBar, List.filter_cons, hk] using h1

/-- Witness for C2 at a concrete table and bars. -/
theorem upsert_bar_idempotent_overwrite_witness :
    upsertBar (upsertBar [] exBar) exBar = upsertBar [] exBar ∧
    rowsAtKey (upsertBar [] exBar) (barKey exBar) = [exBar] ∧
    rowsAtKey (upsertBar (upsertBar [] exBar) exBar) (barKey exBar) = [exBar] :=
  upsert_bar_idempotent_overwrite [] exBar exBar rfl

/-- C5: the resampler's bucket assignment: a tick at time `t` goes to
the bucket starting at `floor(t / w) * w`; that start bounds `t` from
below within one width, and the half-open interval `[k*w, (k+1)*w)`
containing `t` is exactly the assigned bucket, so buckets partition the
timeline with no overlap. -/
theorem bucketStart_unique_bucket (w t : ℕ) (hw : 0 < w) :
    bucketStart w t = t / w * w ∧
    bucketStart w t ≤ t ∧ t < bucketStart w t + w ∧
    ∀ k : ℕ, (k * w ≤ t ∧ t < (k + 1) * w) ↔ bucketStart w t = k * w := by
  have hle : t / w * w ≤ t := Nat.div_mul_le_self t w
  have hlt : t < t / w * w + w := by
    have h1 : w * (t / w) + t % w = t := Nat.div_add_mod t w
    have h2 : t % w < w := Nat.mod_lt t hw
    have h3 : t < w * (t / w) + w := by linarith
    calc t < w * (t / w) + w := h3
    _ = t / w * w + w := by ring
  refine ⟨rfl, hle, hlt, fun k => ⟨fun ⟨h1, h2⟩ => ?_, fun h => ?_⟩⟩
  · have : t / w = k := Nat.div_eq_of_lt_le h1 h2
    simp [bucketStart, this]
  · have hk : t / w = k := Nat.eq_of_mul_eq_mul_right hw h
    constructor
    · simpa [hk] using hle
    · have : t < t / w * w + w := hlt
      calc t < t / w * w + w := this
      _ = (k + 1) * w := by rw [hk]; ring
  
/-- Witness for C5 at `w = 1000`, `t = 1234`. -/
theorem bucketStart_unique_bucket_witness :
    bucketStart 1000 1234 = 1234 / 1000 * 1000 ∧
    ((1 * 1000 ≤ 1234 ∧ 1234 < (1 + 1) * 1000) ↔ bucketStart 1000 1234 = 1 * 1000) :=
  ⟨(bucketStart_unique_bucket 1000 1234 (by decide)).1,
   (bucketStart_unique_bucket 1000 1234 (by decide)).2.2.2 1⟩

/-- Unfolded accumulation of the per-message decode loop: the final
buffer appends exactly the decoded ticks, and `message_ids` collects
exactly the ids of the messages whose decode succeeded. -/
theorem processMessages_foldl (msgs : List (ℕ × EntryFields))
    (p : List Tick × List ℕ) :
    msgs.foldl
      (fun acc m =>
        match decodeTick m.2 with
        | some tick => (acc.1 ++ [tick], acc.2 ++ [m.1])
        | none => acc) p =
    (p.1 ++ msgs.filterMap (fun m => decodeTick m.2),
     p.2 ++ (msgs.filter fun m => (decodeTick m.2).isSome).map Prod.fst) := by
  induction msgs generalizing p with
  | nil => simp
  | cons m msgs ih =>
    cases h : decodeTick m.2 with
    | none => simp [List.foldl_cons, h, ih]
    | some tick => simp [List.foldl_cons, h, ih]

/-- C6: the buffer manager acknowledges exactly the identifiers of the
entries whose fields decoded successfully; every successfully decoded
entry is buffered (appended in order) and acknowledged, every failing
entry is neither buffered nor recorded for acknowledgment, and the loop
continues over the whole batch. -/
theorem fetch_ack_exactly_decoded (buf : List Tick) (msgs : List (ℕ × EntryFields)) :
    processMessages buf msgs =
      (buf ++ msgs.filterMap (fun m => decodeTick m.2),
       (msgs.filter fun m => (decodeTick m.2).isSome).map Prod.fst) ∧
    (∀ i : ℕ, i ∈ (processMessages buf msgs).2 ↔
      ∃ m ∈ msgs, m.1 = i ∧ (decodeTick m.2).isSome) ∧
    (∀ tick : Tick, tick ∈ (processMessages buf msgs).1 ↔
      tick ∈ buf ∨ ∃ m ∈ msgs, decodeTick m.2 = some tick) := by
  have h := processMessages_foldl msgs (buf, [])
  refine ⟨h, fun i => ?_, fun tick => ?_⟩
  · rw [processMessages, h]
    simp only [List.nil_append, List.mem_map, List.mem_filter]
    constructor
    · rintro ⟨m, ⟨hm, hd⟩, rfl⟩
      exact ⟨m, hm, rfl, by simpa using hd⟩
    · rintro ⟨m, hm, rfl, hd⟩
      exact ⟨m, ⟨hm, by simpa using hd⟩, rfl⟩
  · rw [processMessages, h]
    simp [List.mem_filterMap]

/-- C10 (frame effect of a resampling cycle): resampling symbol `s`
returns nothing and leaves the whole buffer map untouched when `s`'s
buffer is empty; otherwise it clears exactly `s`'s buffer and leaves
every other symbol's buffer unchanged. -/
theorem process_and_resample_frame (buf : String → List Tick) (s s' : String) :
    (buf s = [] → process_and_resample buf s = (none, buf)) ∧
    (s' ≠ s → (process_and_resample buf s).2 s' = buf s') ∧
    (buf s ≠ [] → (process_and_resample buf s).2 s = []) := by
  refine ⟨fun h => by simp [process_and_resample, h], fun h => ?_, fun h => ?_⟩
  · cases hb : buf s with
    | nil => simp [process_and_resample, hb]
    | cons t ts => simp [process_and_resample, hb, h]
  · cases hb : buf s with
    | nil => exact absurd hb h
    | cons t ts => simp [process_and_resample, hb]

/-- C4 (corrected), counterexample: the exchange decimal string `"0.1"`
(value `decimalValue 1 1`) denotes a rational that no binary floating
point value can equal, so the pipeline's `float`/`DOUBLE`
representation of it silently loses precision. -/
theorem price_tenth_not_float_representable :
    ¬ PyFloatRepresentable (decimalValue 1 1) := by
  rintro ⟨m, e, h⟩
  rw [decimalValue] at h
  have h2e : (0:ℚ) < 2 ^ e := by positivity
  have h2 : (2 : ℚ) ^ e = 10 * m := by
    rw [div_eq_div_iff (by norm_num) (ne_of_gt h2e)] at h
    push_cast at h ⊢
    linarith
  have h3 : (2 : ℤ) ^ e = 10 * m := by exact_mod_cast h2
  have h5 : (5 : ℤ) ∣ 2 ^ e := ⟨2 * m, by linarith⟩
  have hp : Prime (5 : ℤ) := by norm_num
  have : (5 : ℤ) ∣ 2 := hp.dvd_of_dvd_pow h5
  norm_num at this

/-- C4 (amended): the pipeline's price/quantity representation is
binary floating point (dyadic rationals), not an exact decimal type:
integers decode exactly, but there is an exchange decimal string —
`"0.1"` — whose exact value is not representable, so precision can be
silently lost. -/
theorem float_decode_loses_decimal_precision :
    (∀ n : ℕ, PyFloatRepresentable (decimalValue n 0)) ∧
    ¬ PyFloatRepresentable (decimalValue 1 1) := by
  refine ⟨fun n => ⟨n, 0, by simp [decimalValue]⟩, price_tenth_not_float_representable⟩

/-- C8 (corrected), counterexample: a parsed message carrying both a
symbol field and a price field but no event-time and no quantity field
is not published — `process_and_store` raises (`tick_data['E']` is a
`KeyError`), which resets the session instead of publishing. -/
theorem message_with_symbol_price_not_published :
    (FeedMsg.mk (some "BTCUSDT") (some "100.5") none none).s.isSome = true ∧
    (FeedMsg.mk (some "BTCUSDT") (some "100.5") none none).p.isSome = true ∧
    ¬ publishes (FeedMsg.mk (some "BTCUSDT") (some "100.5") none none) ∧
    process_and_store (FeedMsg.mk (some "BTCUSDT") (some "100.5") none none) =
      Except.error () := by
  refine ⟨rfl, rfl, ?_, rfl⟩
  rintro ⟨t, h⟩
  simp [publishes, process_and_store] at h

/-- C8 (amended): a message is published iff it carries all four of the
symbol, price, event-time and quantity fields; a message lacking symbol
or price is silently discarded with no state change; a message carrying
symbol and price but lacking event-time or quantity raises, which
breaks the receive loop (session reset) without publishing. -/
theorem process_and_store_publish_condition (m : FeedMsg) :
    (publishes m ↔
      m.s.isSome = true ∧ m.p.isSome = true ∧ m.E.isSome = true ∧ m.q.isSome = true) ∧
    (m.s = none ∨ m.p = none → process_and_store m = Except.ok none) ∧
    (m.s.isSome = true → m.p.isSome = true → m.E = none ∨ m.q = none →
      process_and_store m = Except.error ()) := by
  rcases m with ⟨s, p, q, E⟩
  cases s <;> cases p <;> cases q <;> cases E <;>
    simp [publishes, process_and_store]

/-- Acks appear nowhere in the resample/store part of a worker cycle. -/
theorem processTrace_no_ack (symbols : List String) (produced : String → Bool) :
    ∀ e ∈ processTrace symbols produced, e.isAck = false := by
  intro e he
  simp only [processTrace, List.mem_flatMap, List.mem_cons] at he
  obtain ⟨sym, -, he⟩ := he
  rcases he with rfl | he
  · rfl
  · by_cases hif : produced sym = true
    · rw [if_pos hif, List.mem_singleton] at he
      subst he; rfl
    · rw [if_neg hif] at he
      simp at he

/-- Upserts appear nowhere in the fetch-and-buffer part of a worker
cycle. -/
theorem fetchTrace_no_upsert (batch : List (String × List (ℕ × EntryFields))) :
    ∀ e ∈ fetchTrace batch, e.isUpsert = false := by
  intro e he
  simp only [fetchTrace, List.mem_cons, List.mem_flatMap] at he
  rcases he with rfl | ⟨s, -, he⟩
  · rfl
  · simp only [streamTrace, List.mem_append, List.mem_map] at he
    rcases he with ⟨m, -, rfl⟩ | he
    · cases decodeTick m.2 <;> rfl
    · by_cases hif :
        ((s.2.filter fun m => (decodeTick m.2).isSome).map Prod.fst).isEmpty = true
      · rw [if_pos hif] at he
        simp at he
      · rw [if_neg hif, List.mem_singleton] at he
        subst he; rfl

/-- C3 (amended): within one worker-cycle trace, every acknowledgment
happens strictly before every upsert: the `xack` calls are issued inside
`_fetch_and_buffer_ticks`, which `run_worker_thread` completes before
any `_process_and_resample`/`_store_to_duckdb` step of the cycle. -/
theorem worker_cycle_ack_before_upsert (symbols : List String)
    (batch : List (String × List (ℕ × EntryFields))) (produced : String → Bool)
    (i j : ℕ) (hi : i < (cycleTrace symbols batch produced).length)
    (hj : j < (cycleTrace symbols batch produced).length)
    (hack : ((cycleTrace symbols batch produced).get ⟨i, hi⟩).isAck = true)
    (hup : ((cycleTrace symbols batch produced).get ⟨j, hj⟩).isUpsert = true) :
    i < j := by
  have hlen : (cycleTrace symbols batch produced).length =
      (fetchTrace batch).length + (processTrace symbols produced).length := by
    simp [cycleTrace]
  have hiL : i < (fetchTrace batch).length := by
    by_contra hge
    push_neg at hge
    have hi2 : i - (fetchTrace batch).length < (processTrace symbols produced).length := by
      omega
    have hmem : (cycleTrace symbols batch produced).get ⟨i, hi⟩ ∈
        processTrace symbols produced := by
      have heq : (cycleTrace symbols batch produced).get ⟨i, hi⟩ =
          (processTrace symbols produced).get ⟨i - (fetchTrace batch).length, hi2⟩ := by
        simp only [cycleTrace, List.get_eq_getElem]
        rw [List.getElem_append_right hge]
      rw [heq]
      exact List.get_mem _ _ _
    have hfalse := processTrace_no_ack symbols produced _ hmem
    rw [hack] at hfalse
    exact absurd hfalse (by decide)
  have hjR : (fetchTrace batch).length ≤ j := by
    by_contra hlt
    push_neg at hlt
    have hmem : (cycleTrace symbols batch produced).get ⟨j, hj⟩ ∈ fetchTrace batch := by
      have heq : (cycleTrace symbols batch produced).get ⟨j, hj⟩ =
          (fetchTrace batch).get ⟨j, hlt⟩ := by
        simp only [cycleTrace, List.get_eq_getElem]
        rw [List.getElem_append_left hlt]
      rw [heq]
      exact List.get_mem _ _ _
    have hfalse := fetchTrace_no_upsert batch _ hmem
    rw [hup] at hfalse
    exact absurd hfalse (by decide)
  omega

/-- Witness for C3's amended theorem: in the concrete one-entry cycle
the acknowledgment sits at index 2 and the upsert at index 4. -/
theorem worker_cycle_ack_before_upsert_witness : (2 : ℕ) < 4 :=
  worker_cycle_ack_before_upsert ["btcusdt"] exBatch (fun _ => true) 2 4
    (by decide) (by decide) (by decide) (by decide)

/-- C3 (counterexample to the claim as stated): in the concrete worker
cycle on `exBatch`, the batch's entry is acknowledged (index 2 of the
trace) before the bars derived from it are upserted (index 4), so
acknowledgment does not come after the upsert step as claimed. -/
theorem ack_precedes_upsert_counterexample :
    cycleTrace ["btcusdt"] exBatch (fun _ => true) =
      [WEvent.readBatch, WEvent.bufferTick "ticks:btcusdt" 1,
       WEvent.ackIds "ticks:btcusdt" [1], WEvent.resample "btcusdt",
       WEvent.upsertBars "btcusdt"] ∧
    List.indexOf (WEvent.ackIds "ticks:btcusdt" [1])
        (cycleTrace ["btcusdt"] exBatch (fun _ => true)) <
      List.indexOf (WEvent.upsertBars "btcusdt")
        (cycleTrace ["btcusdt"] exBatch (fun _ => true)) := by
  constructor <;> decide

/-- The sort of `_process_and_resample` permutes the buffered ticks. -/
theorem sortByTime_perm (l : List Tick) : List.Perm (sortByTime l) l :=
  List.perm_insertionSort tickLE l

/-- The sort of `_process_and_resample` orders ticks by timestamp. -/
theorem sortByTime_sorted (l : List Tick) : List.Sorted tickLE (sortByTime l) :=
  List.sorted_insertionSort tickLE l

/-- Bucket contents are the same multiset before and after the sort. -/
theorem bucketTicks_sort_perm (w b : ℕ) (l : List Tick) :
    List.Perm (bucketTicks w b (sortByTime l)) (bucketTicks w b l) :=
  (sortByTime_perm l).filter _

/-- A bucket key occurs iff some tick maps into that bucket. -/
theorem mem_bucketKeys (w b : ℕ) (l : List Tick) :
    b ∈ bucketKeys w l ↔ ∃ t ∈ l, bucketStart w t.T = b := by
  simp [bucketKeys, List.mem_dedup, List.mem_map]

/-- Bucket keys are pairwise distinct. -/
theorem bucketKeys_nodup (w : ℕ) (l : List Tick) : (bucketKeys w l).Nodup :=
  List.nodup_dedup _

/-- A bucket key occurs iff its bucket is non-empty. -/
theorem mem_bucketKeys_iff_ne_nil (w b : ℕ) (l : List Tick) :
    b ∈ bucketKeys w l ↔ bucketTicks w b l ≠ [] := by
  rw [mem_bucketKeys]
  constructor
  · rintro ⟨t, ht, rfl⟩ hnil
    have : t ∈ bucketTicks w (bucketStart w t.T) l := by
      simp [bucketTicks, ht]
    rw [hnil] at this
    exact absurd this (List.not_mem_nil t)
  · intro hne
    rcases List.exists_mem_of_ne_nil _ hne with ⟨t, ht⟩
    rw [bucketTicks, List.mem_filter] at ht
    exact ⟨t, ht.1, by simpa using ht.2⟩

/-- The aggregation returns no bar exactly for an empty bucket. -/
theorem barOfBucket_eq_none_iff (sym tf : String) (w b : ℕ) (l : List Tick) :
    barOfBucket sym tf w b l = none ↔ bucketTicks w b l = [] := by
  rw [barOfBucket]
  cases bucketTicks w b l <;> simp

/-- Explicit form of the bar aggregated from a non-empty bucket. -/
theorem barOfBucket_cons (sym tf : String) (w b : ℕ) (l : List Tick)
    (t : Tick) (rest : List Tick) (h : bucketTicks w b l = t :: rest) :
    barOfBucket sym tf w b l =
      some
        { symbol := sym, time := b, open_ := t.P,
          high := rest.foldl (fun m x => max m x.P) t.P,
          low := rest.foldl (fun m x => min m x.P) t.P,
          close := (rest.getLastD t).P,
          volume := ((t :: rest).map Tick.Q).sum, timeframe := tf } := by
  rw [barOfBucket, h]

/-- Lower and upper behaviour of the running-max fold computing `high`. -/
theorem foldl_max_bounds (l : List Tick) :
    ∀ a : ℚ, a ≤ l.foldl (fun m x => max m x.P) a ∧
      (∀ x ∈ l, x.P ≤ l.foldl (fun m x => max m x.P) a) ∧
      (l.foldl (fun m x => max m x.P) a = a ∨
        ∃ x ∈ l, l.foldl (fun m x => max m x.P) a = x.P) := by
  induction l with
  | nil => intro a; simp
  | cons y l ih =>
    intro a
    obtain ⟨h1, h2, h3⟩ := ih (max a y.P)
    refine ⟨le_trans (le_max_left a y.P) h1, ?_, ?_⟩
    · intro x hx
      rcases List.mem_cons.mp hx with rfl | hx
      · exact le_trans (le_max_right a x.P) h1
      · exact h2 x hx
    · rcases h3 with h3 | ⟨x, hx, h3⟩
      · rcases max_choice a y.P with hm | hm
        · exact Or.inl (by rw [List.foldl_cons, h3, hm])
        · exact Or.inr ⟨y, List.mem_cons_self y l, by rw [List.foldl_cons, h3, hm]⟩
      · exact Or.inr ⟨x, List.mem_cons_of_mem y hx, by rw [List.foldl_cons, h3]⟩

/-- Lower and upper behaviour of the running-min fold computing `low`. -/
theorem foldl_min_bounds (l : List Tick) :
    ∀ a : ℚ, l.foldl (fun m x => min m x.P) a ≤ a ∧
      (∀ x ∈ l, l.foldl (fun m x => min m x.P) a ≤ x.P) ∧
      (l.foldl (fun m x => min m x.P) a = a ∨
        ∃ x ∈ l, l.foldl (fun m x => min m x.P) a = x.P) := by
  induction l with
  | nil => intro a; simp
  | cons y l ih =>
    intro a
    obtain ⟨h1, h2, h3⟩ := ih (min a y.P)
    refine ⟨le_trans h1 (min_le_left a y.P), ?_, ?_⟩
    · intro x hx
      rcases List.mem_cons.mp hx with rfl | hx
      · exact le_trans h1 (min_le_right a x.P)
      · exact h2 x hx
    · rcases h3 with h3 | ⟨x, hx, h3⟩
      · rcases min_choice a y.P with hm | hm
        · exact Or.inl (by rw [List.foldl_cons, h3, hm])
        · exact Or.inr ⟨y, List.mem_cons_self y l, by rw [List.foldl_cons, h3, hm]⟩
      · exact Or.inr ⟨x, List.mem_cons_of_mem y hx, by rw [List.foldl_cons, h3]⟩

/-- The `getLastD` used for `close` picks an element of the bucket. -/
theorem getLastD_mem (rest : List Tick) : ∀ t : Tick, rest.getLastD t ∈ t :: rest := by
  induction rest with
  | nil => intro t; simp
  | cons r rs ih =>
    intro t
    rw [List.getLastD_cons]
    exact List.mem_cons_of_mem t (ih r)

/-- In a timestamp-sorted bucket, the head has the least timestamp. -/
theorem sorted_head_min (t : Tick) (rest : List Tick)
    (h : List.Sorted tickLE (t :: rest)) : ∀ u ∈ t :: rest, t.T ≤ u.T := by
  intro u hu
  rcases List.mem_cons.mp hu with rfl | hu
  · exact le_refl u.T
  · exact List.rel_of_sorted_cons h u hu

/-- In a timestamp-sorted bucket, the `getLastD` element has the
greatest timestamp. -/
theorem sorted_getLastD_max (rest : List Tick) :
    ∀ t : Tick, List.Sorted tickLE (t :: rest) →
      ∀ u ∈ t :: rest, u.T ≤ (rest.getLastD t).T := by
  induction rest with
  | nil => intro t _ u hu; simp at hu; simp [hu]
  | cons r rs ih =>
    intro t h u hu
    rw [List.getLastD_cons]
    have htail : List.Sorted tickLE (r :: rs) := h.of_cons
    rcases List.mem_cons.mp hu with rfl | hu
    · have h1 : tickLE u (rs.getLastD r) :=
        List.rel_of_sorted_cons h _ (getLastD_mem rs r)
      exact h1
    · exact ih r htail u hu

/-- Inversion of a successful bucket aggregation: the bucket is
non-empty and every field of the bar is the corresponding aggregate of
the bucket's ticks. -/
theorem barOfBucket_some_inv (sym tf : String) (w k : ℕ) (l : List Tick) (bar : Bar)
    (h : barOfBucket sym tf w k l = some bar) :
    ∃ t rest, bucketTicks w k l = t :: rest ∧
      bar.open_ = t.P ∧
      bar.high = rest.foldl (fun m x => max m x.P) t.P ∧
      bar.low = rest.foldl (fun m x => min m x.P) t.P ∧
      bar.close = (rest.getLastD t).P ∧
      bar.volume = ((t :: rest).map Tick.Q).sum ∧
      bar.time = k ∧ bar.symbol = sym ∧ bar.timeframe = tf := by
  cases hb : bucketTicks w k l with
  | nil => rw [barOfBucket, hb] at h; simp at h
  | cons t rest =>
    rw [barOfBucket, hb, Option.some_inj] at h
    subst h
    exact ⟨t, rest, rfl, rfl, rfl, rfl, rfl, rfl, rfl, rfl, rfl⟩

/-- The time attached to an aggregated bar is its bucket key. -/
theorem barOfBucket_time (sym tf : String) (w k : ℕ) (l : List Tick) (bar : Bar)
    (h : barOfBucket sym tf w k l = some bar) : bar.time = k := by
  obtain ⟨-, -, -, -, -, -, -, -, ht, -⟩ := barOfBucket_some_inv sym tf w k l bar h
  exact ht

/-- Rows of a keyed `filterMap` selected by `time`: when the key list
has no duplicates, the selection is the single row generated at that
key, or nothing. -/
theorem filterMap_filter_time (g : ℕ → Option Bar)
    (hg : ∀ k bar, g k = some bar → bar.time = k) (b : ℕ) :
    ∀ keys : List ℕ, keys.Nodup →
      (keys.filterMap g).filter (fun x => decide (x.time = b)) =
        if b ∈ keys then (g b).toList else [] := by
  intro keys
  induction keys with
  | nil => intro _; simp
  | cons k ks ih =>
    intro hnd
    rw [List.nodup_cons] at hnd
    obtain ⟨hk, hnd⟩ := hnd
    rw [List.filterMap_cons]
    by_cases hbk : b = k
    · subst hbk
      cases hgb : g b with
      | none => simp [ih hnd, hk]
      | some bar =>
        have hbar : bar.time = b := hg b bar hgb
        simp [List.filter_cons, hbar, ih hnd, hk]
    · cases hgk : g k with
      | none =>
        rw [ih hnd]
        simp [List.mem_cons, hbk]
      | some bar =>
        have hbar : bar.time = k := hg k bar hgk
        have hdec : (decide (bar.time = b)) = false := by
          simp [hbar]; exact fun hc => hbk hc.symm
        rw [List.filter_cons]
        simp only [hdec]
        rw [ih hnd]
        simp [List.mem_cons, hbk]

/-- Membership in the resampled list, unfolded. -/
theorem mem_resampleTimeframe (sym tf : String) (w : ℕ) (ticks : List Tick) (bar : Bar) :
    bar ∈ resampleTimeframe sym tf w ticks ↔
      ∃ b ∈ bucketKeys w (sortByTime ticks),
        barOfBucket (pyLower sym) tf w b (sortByTime ticks) = some bar := by
  simp [resampleTimeframe, List.mem_filterMap]

/-- C1: for every buffered tick list, timeframe width and bucket, an
empty bucket yields no bar, and a non-empty bucket yields exactly one
bar whose open is the price of a minimal-timestamp tick of the bucket,
whose close is the price of a maximal-timestamp tick, whose high/low
are the maximum/minimum bucket prices, and whose volume is the sum of
the bucket's quantities. -/
theorem resample_one_bar_per_bucket (sym tf : String) (w : ℕ) (ticks : List Tick)
    (b : ℕ) :
    (bucketTicks w b ticks = [] →
      (resampleTimeframe sym tf w ticks).filter (fun x => decide (x.time = b)) = []) ∧
    (bucketTicks w b ticks ≠ [] →
      ∃ bar : Bar,
        (resampleTimeframe sym tf w ticks).filter (fun x => decide (x.time = b)) = [bar] ∧
        (∃ t0 ∈ bucketTicks w b ticks,
          (∀ u ∈ bucketTicks w b ticks, t0.T ≤ u.T) ∧ bar.open_ = t0.P) ∧
        (∃ t1 ∈ bucketTicks w b ticks,
          (∀ u ∈ bucketTicks w b ticks, u.T ≤ t1.T) ∧ bar.close = t1.P) ∧
        bar.high ∈ (bucketTicks w b ticks).map Tick.P ∧
        (∀ p ∈ (bucketTicks w b ticks).map Tick.P, p ≤ bar.high) ∧
        bar.low ∈ (bucketTicks w b ticks).map Tick.P ∧
        (∀ p ∈ (bucketTicks w b ticks).map Tick.P, bar.low ≤ p) ∧
        bar.volume = ((bucketTicks w b ticks).map Tick.Q).sum) := by
  have hperm := bucketTicks_sort_perm w b ticks
  have hres : (resampleTimeframe sym tf w ticks).filter (fun x => decide (x.time = b)) =
      if b ∈ bucketKeys w (sortByTime ticks) then
        (barOfBucket (pyLower sym) tf w b (sortByTime ticks)).toList
      else [] := by
    simp only [resampleTimeframe]
    exact filterMap_filter_time _
      (fun k bar h => barOfBucket_time _ _ _ _ _ _ h) b
      (bucketKeys w (sortByTime ticks)) (bucketKeys_nodup w _)
  constructor
  · intro hnil
    have hnil2 : bucketTicks w b (sortByTime ticks) = [] :=
      List.Perm.eq_nil (hnil ▸ hperm)
    have hnb : b ∉ bucketKeys w (sortByTime ticks) := by
      rw [mem_bucketKeys_iff_ne_nil]
      simp [hnil2]
    rw [hres, if_neg hnb]
  · intro hne
    have hne2 : bucketTicks w b (sortByTime ticks) ≠ [] := by
      intro h
      exact hne (List.Perm.eq_nil (h ▸ hperm).symm)
    obtain ⟨t, rest, hb⟩ : ∃ t rest, bucketTicks w b (sortByTime ticks) = t :: rest := by
      cases hcase : bucketTicks w b (sortByTime ticks) with
      | nil => exact absurd hcase hne2
      | cons t rest => exact ⟨t, rest, rfl⟩
    have hmemb : b ∈ bucketKeys w (sortByTime ticks) :=
      (mem_bucketKeys_iff_ne_nil w b _).mpr hne2
    have hbar := barOfBucket_cons (pyLower sym) tf w b (sortByTime ticks) t rest hb
    have hsorted0 : List.Sorted tickLE (bucketTicks w b (sortByTime ticks)) :=
      List.Pairwise.filter _ (sortByTime_sorted ticks)
    rw [hb] at hsorted0
    have hmem_iff : ∀ u : Tick, u ∈ t :: rest ↔ u ∈ bucketTicks w b ticks := by
      intro u
      rw [← hb]
      exact hperm.mem_iff
    obtain ⟨hmax_init, hmax_all, hmax_mem⟩ := foldl_max_bounds rest t.P
    obtain ⟨hmin_init, hmin_all, hmin_mem⟩ := foldl_min_bounds rest t.P
    refine ⟨Bar.mk (pyLower sym) b t.P
        (rest.foldl (fun m x => max m x.P) t.P)
        (rest.foldl (fun m x => min m x.P) t.P)
        (rest.getLastD t).P
        (((t :: rest).map Tick.Q).sum) tf,
      ?_, ?_, ?_, ?_, ?_, ?_, ?_, ?_⟩
    · rw [hres, if_pos hmemb, hbar]
      rfl
    · exact ⟨t, (hmem_iff t).mp (List.mem_cons_self t rest),
        fun u hu => sorted_head_min t rest hsorted0 u ((hmem_iff u).mpr hu), rfl⟩
    · refine ⟨rest.getLastD t, (hmem_iff _).mp (getLastD_mem rest t),
        fun u hu => sorted_getLastD_max rest t hsorted0 u ((hmem_iff u).mpr hu), rfl⟩
    · rcases hmax_mem with h | ⟨x, hx, h⟩
      · exact List.mem_map.mpr ⟨t, (hmem_iff t).mp (List.mem_cons_self t rest), h.symm⟩
      · exact List.mem_map.mpr ⟨x, (hmem_iff x).mp (List.mem_cons_of_mem t hx), h.symm⟩
    · intro p hp
      obtain ⟨u, hu, rfl⟩ := List.mem_map.mp hp
      rcases List.mem_cons.mp ((hmem_iff u).mpr hu) with rfl | hu2
      · exact hmax_init
      · exact hmax_all u hu2
    · rcases hmin_mem with h | ⟨x, hx, h⟩
      · exact List.mem_map.mpr ⟨t, (hmem_iff t).mp (List.mem_cons_self t rest), h.symm⟩
      · exact List.mem_map.mpr ⟨x, (hmem_iff x).mp (List.mem_cons_of_mem t hx), h.symm⟩
    · intro p hp
      obtain ⟨u, hu, rfl⟩ := List.mem_map.mp hp
      rcases List.mem_cons.mp ((hmem_iff u).mpr hu) with rfl | hu2
      · exact hmin_init
      · exact hmin_all u hu2
    · have hpq : List.Perm ((t :: rest).map Tick.Q)
          ((bucketTicks w b ticks).map Tick.Q) := by
        have := hb ▸ hperm
        exact this.map Tick.Q
      exact hpq.sum_eq

/-- C7: every bar produced by a resampling cycle from ticks with
non-negative quantities satisfies `low ≤ open ≤ high`,
`low ≤ close ≤ high` and `volume ≥ 0`. -/
theorem resample_bar_invariant (sym tf : String) (w : ℕ) (ticks : List Tick)
    (bar : Bar) (hmem : bar ∈ resampleTimeframe sym tf w ticks)
    (hq : ∀ t ∈ ticks, 0 ≤ t.Q) :
    bar.low ≤ bar.open_ ∧ bar.open_ ≤ bar.high ∧ bar.low ≤ bar.close ∧
    bar.close ≤ bar.high ∧ 0 ≤ bar.volume := by
  obtain ⟨b, -, hsome⟩ := (mem_resampleTimeframe sym tf w ticks bar).mp hmem
  obtain ⟨t, rest, hb, hopen, hhigh, hlow, hclose, hvol, -, -, -⟩ :=
    barOfBucket_some_inv _ _ _ _ _ _ hsome
  obtain ⟨hmax_init, hmax_all, -⟩ := foldl_max_bounds rest t.P
  obtain ⟨hmin_init, hmin_all, -⟩ := foldl_min_bounds rest t.P
  have hclose_mem := getLastD_mem rest t
  have hcl : bar.low ≤ bar.close ∧ bar.close ≤ bar.high := by
    rcases List.mem_cons.mp hclose_mem with heq | hmem2
    · rw [hclose, heq]
      exact ⟨by rw [hlow]; exact hmin_init, by rw [hhigh]; exact hmax_init⟩
    · rw [hclose, hlow, hhigh]
      exact ⟨hmin_all _ hmem2, hmax_all _ hmem2⟩
  refine ⟨?_, ?_, hcl.1, hcl.2, ?_⟩
  · rw [hlow, hopen]
    exact hmin_init
  · rw [hopen, hhigh]
    exact hmax_init
  · rw [hvol]
    apply List.sum_nonneg
    intro x hx
    obtain ⟨u, hu, rfl⟩ := List.mem_map.mp hx
    have hu2 : u ∈ bucketTicks w b (sortByTime ticks) := hb ▸ hu
    have hu3 : u ∈ sortByTime ticks := List.mem_of_mem_filter hu2
    exact hq u ((sortByTime_perm ticks).mem_iff.mp hu3)

/-- Witness for C7 on the spec's worked example. -/
theorem resample_bar_invariant_witness :
    exBar.low ≤ exBar.open_ ∧ exBar.open_ ≤ exBar.high ∧ exBar.low ≤ exBar.close ∧
    exBar.close ≤ exBar.high ∧ 0 ≤ exBar.volume :=
  resample_bar_invariant "BTCUSDT" "1s" 1000 exTicks exBar
    (by rw [resample_spec_example]; exact List.mem_singleton.mpr rfl)
    (by decide)

/-- Nesting of bucket assignments: when one width divides another, a
tick's coarse bucket is determined by its fine bucket. -/
theorem bucketStart_nested (w m t : ℕ) (hw : 0 < w) :
    bucketStart (w * m) (bucketStart w t) = bucketStart (w * m) t := by
  unfold bucketStart
  have h1 : t / w * w / (w * m) = t / (w * m) := by
    rw [← Nat.div_div_eq_div_mul, Nat.mul_div_cancel _ hw, Nat.div_div_eq_div_mul]
  rw [h1]

/-- The 1-minute bucket of a tick is determined by its 1-second
bucket. -/
theorem bucketStart_1s_1min (t : ℕ) :
    bucketStart 60000 (bucketStart 1000 t) = bucketStart 60000 t := by
  have h := bucketStart_nested 1000 60 t (by norm_num)
  norm_num at h
  exact h

/-- The volume of an aggregated bar is the quantity sum of its whole
bucket. -/
theorem barOfBucket_volume (sym tf : String) (w k : ℕ) (l : List Tick) (bar : Bar)
    (h : barOfBucket sym tf w k l = some bar) :
    bar.volume = ((bucketTicks w k l).map Tick.Q).sum := by
  obtain ⟨t, rest, hb, -, -, -, -, hvol, -, -, -⟩ := barOfBucket_some_inv _ _ _ _ _ _ h
  rw [hvol, hb]

/-- Every bar emitted for a timeframe carries that timeframe label. -/
theorem mem_resample_timeframe_label (sym tf : String) (w : ℕ) (ticks : List Tick)
    (bar : Bar) (h : bar ∈ resampleTimeframe sym tf w ticks) : bar.timeframe = tf := by
  obtain ⟨b, -, hsome⟩ := (mem_resampleTimeframe sym tf w ticks bar).mp h
  obtain ⟨-, -, -, -, -, -, -, -, -, -, hl⟩ := barOfBucket_some_inv _ _ _ _ _ _ hsome
  exact hl

/-- Aggregation succeeds on every occurring bucket key. -/
theorem barOfBucket_isSome_of_mem_keys (sym tf : String) (w : ℕ) (l : List Tick)
    (k : ℕ) (hk : k ∈ bucketKeys w l) : (barOfBucket sym tf w k l).isSome = true := by
  rw [mem_bucketKeys_iff_ne_nil] at hk
  cases hsome : barOfBucket sym tf w k l with
  | none => exact absurd ((barOfBucket_eq_none_iff sym tf w k l).mp hsome) hk
  | some bar => rfl

/-- Summing a constantly-zero map gives zero. -/
theorem sum_map_zero (ks : List ℕ) : (ks.map fun _ => (0 : ℚ)).sum = 0 := by
  induction ks with
  | nil => rfl
  | cons k ks ih => simp [ih]

/-- Fiber decomposition of a filtered sum: summing, over the distinct
keys selected by `p`, the `h`-sums of each key's fiber of `l`, equals
the `h`-sum of the elements of `l` whose key satisfies `p`. -/
theorem sum_fibers (f : Tick → ℕ) (h : Tick → ℚ) (p : ℕ → Bool) :
    ∀ ks : List ℕ, ks.Nodup → ∀ l : List Tick, (∀ x ∈ l, f x ∈ ks) →
      ((ks.filter p).map
          (fun k => ((l.filter fun x => f x == k).map h).sum)).sum =
        ((l.filter fun x => p (f x)).map h).sum := by
  intro ks
  induction ks with
  | nil =>
    intro _ l hl
    have hnil : l = [] := by
      cases l with
      | nil => rfl
      | cons a l => exact absurd (hl a (List.mem_cons_self a l)) (List.not_mem_nil _)
    subst hnil
    simp [sum_map_zero]
  | cons k ks ih =>
    intro hnd l hl
    rw [List.nodup_cons] at hnd
    obtain ⟨hk, hnd⟩ := hnd
    have hl₂ : ∀ x ∈ l.filter (fun x => !(f x == k)), f x ∈ ks := by
      intro x hx
      obtain ⟨hxl, hxne⟩ := List.mem_filter.mp hx
      have hfx : f x ≠ k := by
        intro hc
        rw [hc] at hxne
        simp at hxne
      rcases List.mem_cons.mp (hl x hxl) with hc | hin
      · exact absurd hc hfx
      · exact hin
    have hsplit : ((l.filter fun x => p (f x)).map h).sum =
        (((l.filter (fun x => f x == k)).filter fun x => p (f x)).map h).sum +
        (((l.filter (fun x => !(f x == k))).filter fun x => p (f x)).map h).sum := by
      have hp2 := (List.filter_append_perm (fun x => f x == k) l).filter
        (fun x => p (f x))
      have hs := (hp2.map h).sum_eq
      rw [← hs, List.filter_append, List.map_append, List.sum_append]
    have hfibers : ∀ k2 ∈ ks,
        (l.filter fun x => f x == k2) =
          ((l.filter (fun x => !(f x == k))).filter fun x => f x == k2) := by
      intro k2 hk2
      rw [List.filter_filter]
      apply List.filter_congr
      intro x _
      cases hbe : f x == k2 with
      | false => simp
      | true =>
        have hfx : f x = k2 := by simpa using hbe
        have hne : (f x == k) = false := by
          simp [hfx]
          intro hc
          exact hk (hc ▸ hk2)
        simp [hne]
    have hmap_eq : ((ks.filter p).map
          (fun k2 => ((l.filter fun x => f x == k2).map h).sum)) =
        ((ks.filter p).map
          (fun k2 => (((l.filter (fun x => !(f x == k))).filter
            fun x => f x == k2).map h).sum)) := by
      apply List.map_congr_left
      intro k2 hk2
      rw [hfibers k2 (List.mem_of_mem_filter hk2)]
    rw [List.filter_cons]
    by_cases hpk : p k = true
    · rw [if_pos hpk, List.map_cons, List.sum_cons, hmap_eq,
        ih hnd (l.filter (fun x => !(f x == k))) hl₂, hsplit]
      have hown : (l.filter (fun x => f x == k)).filter (fun x => p (f x)) =
          l.filter (fun x => f x == k) := by
        apply List.filter_eq_self.mpr
        intro x hx
        have hfx : f x = k := by simpa using (List.mem_filter.mp hx).2
        rw [hfx, hpk]
      rw [hown]
    · rw [if_neg hpk, hmap_eq,
        ih hnd (l.filter (fun x => !(f x == k))) hl₂, hsplit]
      have hown : (l.filter (fun x => f x == k)).filter (fun x => p (f x)) = [] := by
        rw [List.filter_eq_nil_iff]
        intro x hx
        have hfx : f x = k := by simpa using (List.mem_filter.mp hx).2
        rw [hfx]
        simp [hpk]
      rw [hown]
      simp

/-- The volumes of the keyed rows selected by a predicate on their
bucket time are the per-key volumes of the selected keys. -/
theorem filterMap_volumes (g : ℕ → Option Bar)
    (hg_time : ∀ k bar, g k = some bar → bar.time = k)
    (p : ℕ → Bool) (v : ℕ → ℚ)
    (hv : ∀ k bar, g k = some bar → bar.volume = v k) :
    ∀ ks : List ℕ, (∀ k ∈ ks, (g k).isSome = true) →
      (((ks.filterMap g).filter fun x => p x.time).map Bar.volume) =
        (ks.filter p).map v := by
  intro ks
  induction ks with
  | nil => intro _; rfl
  | cons k ks ih =>
    intro hs
    have hksome := hs k (List.mem_cons_self k ks)
    cases hgk : g k with
    | none =>
      rw [hgk] at hksome
      simp at hksome
    | some bar =>
      have ht : bar.time = k := hg_time k bar hgk
      have hvol : bar.volume = v k := hv k bar hgk
      have hrest : ∀ k2 ∈ ks, (g k2).isSome = true :=
        fun k2 hk2 => hs k2 (List.mem_cons_of_mem k hk2)
      rw [List.filterMap_cons, hgk, List.filter_cons, List.filter_cons, ht]
      by_cases hpk : p k = true
      · rw [if_pos hpk, if_pos hpk, List.map_cons, List.map_cons, ih hrest, hvol]
      · rw [if_neg hpk, if_neg hpk, ih hrest]

/-- C9: the bars of the multi-timeframe cycle restricted to one
configured timeframe are exactly the single-timeframe resample of the
same ticks (each timeframe's buckets are unaffected by the others),
and every 1-minute bar's volume is the sum of the volumes of the
1-second bars lying inside its bucket. -/
theorem timeframes_independent_and_volumes_add (sym : String) (ticks : List Tick) :
    (∀ p ∈ RESAMPLE_TIMEFRAMES,
      (RESAMPLE_TIMEFRAMES.flatMap fun q => resampleTimeframe sym q.1 q.2 ticks).filter
          (fun bar => bar.timeframe == p.1) =
        resampleTimeframe sym p.1 p.2 ticks) ∧
    (∀ bar ∈ resampleTimeframe sym "1min" 60000 ticks,
      bar.volume =
        (((resampleTimeframe sym "1s" 1000 ticks).filter
            (fun b1 => bucketStart 60000 b1.time == bar.time)).map Bar.volume).sum) := by
  constructor
  · intro p hp
    have hown : ∀ tf w, (resampleTimeframe sym tf w ticks).filter
        (fun bar => bar.timeframe == tf) = resampleTimeframe sym tf w ticks := by
      intro tf w
      apply List.filter_eq_self.mpr
      intro bar hb
      rw [mem_resample_timeframe_label sym tf w ticks bar hb]
      simp
    have hother : ∀ tf tf2 w, tf2 ≠ tf →
        (resampleTimeframe sym tf2 w ticks).filter
          (fun bar => bar.timeframe == tf) = [] := by
      intro tf tf2 w hne
      rw [List.filter_eq_nil_iff]
      intro bar hb
      rw [mem_resample_timeframe_label sym tf2 w ticks bar hb]
      simp [hne]
    simp only [RESAMPLE_TIMEFRAMES, List.mem_cons, List.not_mem_nil, or_false] at hp
    rcases hp with rfl | rfl | rfl
    · simp only [RESAMPLE_TIMEFRAMES, List.flatMap_cons, List.flatMap_nil,
        List.append_nil, List.filter_append]
      rw [hown "1s" 1000, hother "1s" "1min" 60000 (by decide),
        hother "1s" "5min" 300000 (by decide)]
      simp
    · simp only [RESAMPLE_TIMEFRAMES, List.flatMap_cons, List.flatMap_nil,
        List.append_nil, List.filter_append]
      rw [hown "1min" 60000, hother "1min" "1s" 1000 (by decide),
        hother "1min" "5min" 300000 (by decide)]
      simp
    · simp only [RESAMPLE_TIMEFRAMES, List.flatMap_cons, List.flatMap_nil,
        List.append_nil, List.filter_append]
      rw [hown "5min" 300000, hother "5min" "1s" 1000 (by decide),
        hother "5min" "1min" 60000 (by decide)]
      simp
  · intro bar hbar
    obtain ⟨b, hbk, hsome⟩ := (mem_resampleTimeframe sym "1min" 60000 ticks bar).mp hbar
    have htime : bar.time = b := barOfBucket_time _ _ _ _ _ _ hsome
    have hvolb : bar.volume = ((bucketTicks 60000 b (sortByTime ticks)).map Tick.Q).sum :=
      barOfBucket_volume _ _ _ _ _ _ hsome
    have hRHS : (((resampleTimeframe sym "1s" 1000 ticks).filter
          (fun b1 => bucketStart 60000 b1.time == bar.time)).map Bar.volume) =
        ((bucketKeys 1000 (sortByTime ticks)).filter
          (fun k => bucketStart 60000 k == bar.time)).map
          (fun k => ((bucketTicks 1000 k (sortByTime ticks)).map Tick.Q).sum) := by
      simp only [resampleTimeframe]
      exact filterMap_volumes _
        (fun k bar2 h2 => barOfBucket_time _ _ _ _ _ _ h2)
        (fun u => bucketStart 60000 u == bar.time)
        (fun k => ((bucketTicks 1000 k (sortByTime ticks)).map Tick.Q).sum)
        (fun k bar2 h2 => barOfBucket_volume _ _ _ _ _ _ h2)
        (bucketKeys 1000 (sortByTime ticks))
        (fun k hk => barOfBucket_isSome_of_mem_keys _ _ _ _ _ hk)
    rw [hRHS]
    have hfib := sum_fibers (fun t => bucketStart 1000 t.T) Tick.Q
      (fun k => bucketStart 60000 k == bar.time)
      (bucketKeys 1000 (sortByTime ticks)) (bucketKeys_nodup _ _)
      (sortByTime ticks)
      (fun x hx => (mem_bucketKeys 1000 _ _).mpr ⟨x, hx, rfl⟩)
    simp only [bucketTicks]
    rw [hfib]
    have hcong : (sortByTime ticks).filter
        (fun x => bucketStart 60000 (bucketStart 1000 x.T) == bar.time) =
        (sortByTime ticks).filter (fun x => bucketStart 60000 x.T == bar.time) :=
      List.filter_congr (fun x _ => by rw [bucketStart_1s_1min])
    rw [hcong, htime]
    simp only [bucketTicks] at hvolb
    exact hvolb
